import Mathlib

/-!
Single-Page-Chess: the move / undo / redo controller of `src/App.js`.

`App.js` keeps five pieces of game state in React hooks (`game`, `moveHistory`,
`redoStack`, `selectedSquare`, `showCheckmateModal`) and changes them in three
handlers: `handleKeyDown`, `handleSquareClick` and `resetGame` (plus the two
buttons of the checkmate modal).  The rules of chess are not part of the
repository: they come from the `chess.js` package.  The development therefore
has three layers:

* `ChessLib`: the part of the `chess.js` API that `App.js` calls, as a record of
  functions over an engine-state type `G`, together with the laws of the library
  that the bookkeeping of `App.js` relies on (`ChessLib.Lawful`);
* the handlers of `App.js`, embedded as pure functions on `AppState`;
* `StdChess`: an executable rules engine for standard chess with the `chess.js`
  conventions, which instantiates `ChessLib`, satisfies the laws, and on which the
  concrete scenarios are evaluated.
-/

namespace Chess

/-! ## Values exchanged with the rules engine -/

/-- Side colour, `'w'` or `'b'` in `chess.js`. -/
inductive Color where
  | w
  | b
deriving DecidableEq

/-- Piece symbol of `chess.js`: `'p' 'n' 'b' 'r' 'q' 'k'`. -/
inductive PieceSymbol where
  | p
  | n
  | b
  | r
  | q
  | k
deriving DecidableEq

/-- The value returned by `game.get(square)`: a piece type and its colour. -/
structure Piece where
  type : PieceSymbol
  color : Color
deriving DecidableEq

/-- A board square `a1 .. h8`, the argument the board component passes to
`onSquareClick`.  File `0` is the a-file, rank `0` is the first rank.  Every square
name is a non-empty string, so a selected square is always truthy in
`if (selectedSquare)`. -/
structure Square where
  file : Fin 8
  rank : Fin 8
deriving DecidableEq

/-- The move object of `chess.js`, as returned by `move()` and `undo()`. -/
structure Move where
  color : Color
  from_ : Square
  to_ : Square
  flags : String
  piece : PieceSymbol
  captured : Option PieceSymbol
  promotion : Option PieceSymbol
  san : String
deriving DecidableEq

/-- The three kinds of argument `App.js` and a replay hand to `move()`:
a SAN string, the object literal `{ from, to, promotion }` built in
`handleSquareClick`, and a value taken from `redoStack` (what `undo()` returned, a
move object or `null`). -/
inductive MoveArg where
  | san (s : String)
  | fromTo (from_ to_ : Square) (promotion : PieceSymbol)
  | object (m : Option Move)
deriving DecidableEq

/-- The part of the `chess.js` API used by `App.js`, over engine states `G` and
serialised games `P` (the PGN text, which `App.js` only passes from `pgn()` to
`load_pgn()`).  Methods that mutate the receiver return the new engine state.

* `newChess` is `new Chess()`;
* `load_pgn g p` is the state of `g` after `g.load_pgn(p)` (its boolean result is
  ignored by `App.js`);
* `undo g` is the value returned by `g.undo()` (a move or `null`) and the state of
  `g` afterwards;
* `move g a` is `none` when `g.move(a)` returns `null`, otherwise the move object
  returned and the state of `g` afterwards;
* `get g sq` is `g.get(sq)`, and `turn g` is `g.turn()`. -/
structure ChessLib (G P : Type) where
  newChess : G
  pgn : G → P
  load_pgn : G → P → G
  history : G → List String
  undo : G → Option Move × G
  move : G → MoveArg → Option (Move × G)
  get : G → Square → Option Piece
  turn : G → Color

/-! ## The state and the handlers of `App.js` -/

/-- The game-related `useState` cells of `App` (lines 8-20).  The remaining cells
(`boardOrientation`, `theme`, panel flags, player names) are display state that the
handlers below neither read nor write. -/
structure AppState (G : Type) where
  game : G
  moveHistory : List String
  redoStack : List (Option Move)
  selectedSquare : Option Square
  showCheckmateModal : Bool

variable {G P : Type}

/-- The initial values of the `useState` cells. -/
def initialState (L : ChessLib G P) : AppState G :=
  { game := L.newChess
    moveHistory := []
    redoStack := []
    selectedSquare := none
    showCheckmateModal := false }

/-- The two lines `const gameCopy = new Chess(); gameCopy.load_pgn(game.pgn());`
that open every mutating handler. -/
def gameCopyOf (L : ChessLib G P) (game : G) : G :=
  L.load_pgn L.newChess (L.pgn game)

/-- JavaScript `san.includes('#')`. -/
def includes (s : String) (c : Char) : Bool :=
  s.toList.contains c

/-- The `keydown` listener of `App.js` (lines 52-80) for `e.key = key`.  The source
has two consecutive `if`s on `e.key`; at most one of them can hold, so they are
written as `if ... else if`. -/
def handleKeyDown (L : ChessLib G P) (s : AppState G) (key : String) : AppState G :=
  if key = "ArrowLeft" then
    let gameCopy := gameCopyOf L s.game
    if (L.history gameCopy).length > 0 then
      let undone := L.undo gameCopy
      { s with
        game := undone.2
        moveHistory := s.moveHistory.dropLast
        redoStack := s.redoStack ++ [undone.1]
        selectedSquare := none }
    else s
  else if key = "ArrowRight" then
    if h : s.redoStack.length > 0 then
      let lastRedo := s.redoStack.get ⟨s.redoStack.length - 1, Nat.sub_lt h Nat.one_pos⟩
      let gameCopy := gameCopyOf L s.game
      match L.move gameCopy (MoveArg.object lastRedo) with
      | some (redone, gameCopy) =>
        { s with
          game := gameCopy
          moveHistory := s.moveHistory ++ [redone.san]
          redoStack := s.redoStack.dropLast
          selectedSquare := none }
      | none => s
    else s
  else s

/-- The board's `onSquareClick` handler of `App.js` (lines 86-110). -/
def handleSquareClick (L : ChessLib G P) (s : AppState G) (square : Square) : AppState G :=
  match s.selectedSquare with
  | some selectedSquare =>
    let gameCopy := gameCopyOf L s.game
    match L.move gameCopy (MoveArg.fromTo selectedSquare square PieceSymbol.q) with
    | some (move, gameCopy) =>
      { game := gameCopy
        moveHistory := s.moveHistory ++ [move.san]
        redoStack := []
        selectedSquare := none
        showCheckmateModal := if includes move.san '#' then true else s.showCheckmateModal }
    | none => { s with selectedSquare := none }
  | none =>
    match L.get s.game square with
    | some piece =>
      if piece.color = L.turn s.game then { s with selectedSquare := some square } else s
    | none => s

/-- The handler `resetGame` of `App.js` (lines 126-132), bound to the reset button. -/
def resetGame (L : ChessLib G P) (s : AppState G) : AppState G :=
  { s with
    game := L.newChess
    selectedSquare := none
    moveHistory := []
    redoStack := [] }

/-- The `onClick` of the two closing buttons of the checkmate modal (lines 459, 466):
`setShowCheckmateModal(false)`. -/
def closeModal (s : AppState G) : AppState G :=
  { s with showCheckmateModal := false }

/-- The `onClick` of the "Play Again" button (lines 471-474): `resetGame()` followed
by `setShowCheckmateModal(false)`. -/
def playAgain (L : ChessLib G P) (s : AppState G) : AppState G :=
  closeModal (resetGame L s)

/-- The input events that change the game state. -/
inductive Event where
  | squareClick (square : Square)
  | keyDown (key : String)
  | reset
  | closeModal
  | playAgain
deriving DecidableEq

/-- One event, handled to completion (events are processed one at a time). -/
def step (L : ChessLib G P) (s : AppState G) : Event → AppState G
  | Event.squareClick square => handleSquareClick L s square
  | Event.keyDown key => handleKeyDown L s key
  | Event.reset => resetGame L s
  | Event.closeModal => closeModal s
  | Event.playAgain => playAgain L s

/-- The state after a sequence of events from the initial state. -/
def run (L : ChessLib G P) (events : List Event) : AppState G :=
  events.foldl (step L) (initialState L)

/-- The states the application can be in. -/
inductive Reachable (L : ChessLib G P) : AppState G → Prop where
  | init : Reachable L (initialState L)
  | step (s : AppState G) (e : Event) : Reachable L s → Reachable L (step L s e)


/-! ## The laws of the rules engine

The handlers never look inside an engine state; what they rely on is that the
library serialises and reloads a game faithfully and that `move`, `undo` and
`history` agree with each other.  These laws are stated for the engine states that
can arise from `new Chess()` through the methods `App.js` calls. -/

/-- The engine states that arise from `new Chess()` by copying through
`pgn()` / `load_pgn()`, by successful calls of `move` and by `undo`. -/
inductive ChessLib.Arises (L : ChessLib G P) : G → Prop where
  | fresh : ChessLib.Arises L L.newChess
  | load (g : G) : ChessLib.Arises L g → ChessLib.Arises L (L.load_pgn L.newChess (L.pgn g))
  | move (g : G) (a : MoveArg) (m : Move) (g' : G) :
      ChessLib.Arises L g → L.move g a = some (m, g') → ChessLib.Arises L g'
  | undo (g : G) : ChessLib.Arises L g → ChessLib.Arises L (L.undo g).2

/-- The laws of `chess.js` used in the proofs.

* `load_pgn_pgn`: loading the PGN of a game into a new engine reproduces the game;
* `history_new`: a new game has no moves;
* `history_move`: a successful `move` appends the SAN of the returned move object to
  `history()`;
* `undo_move`: `undo()` after a successful `move` returns that move object and the
  state before the move;
* `move_undo`: when `history()` is not empty, `undo()` returns a move object, and
  passing this object to `move` on the resulting state plays the move again: it
  returns the same object and the state before the `undo()`;
* `move_san`: a move that was played can also be played by its SAN, with the same
  resulting state. -/
structure ChessLib.Lawful (L : ChessLib G P) : Prop where
  load_pgn_pgn : ∀ g, L.Arises g → L.load_pgn L.newChess (L.pgn g) = g
  history_new : L.history L.newChess = []
  history_move : ∀ g a m g', L.Arises g → L.move g a = some (m, g') →
    L.history g' = L.history g ++ [m.san]
  undo_move : ∀ g a m g', L.Arises g → L.move g a = some (m, g') → L.undo g' = (some m, g)
  move_undo : ∀ g, L.Arises g → L.history g ≠ [] →
    ∃ m, (L.undo g).1 = some m ∧ L.move (L.undo g).2 (MoveArg.object (some m)) = some (m, g)
  move_san : ∀ g a m g', L.Arises g → L.move g a = some (m, g') →
    ∃ m', L.move g (MoveArg.san m.san) = some (m', g')

/-! ## Notions used by the specification -/

/-- Playing a list of SAN moves one after another onto an engine state; `none` if one
of them is rejected. -/
def replayOnto (L : ChessLib G P) : G → List String → Option G
  | g, [] => some g
  | g, s :: rest =>
    match L.move g (MoveArg.san s) with
    | some (_, g') => replayOnto L g' rest
    | none => none

/-- Replaying a move history from the initial position. -/
def replay (L : ChessLib G P) (sans : List String) : Option G :=
  replayOnto L L.newChess sans

/-- Whether the descriptors of `line`, in that order, can be played one after another
from the engine state `g`. -/
def playable (L : ChessLib G P) : G → List (Option Move) → Bool
  | _, [] => true
  | g, m :: rest =>
    match L.move g (MoveArg.object m) with
    | some (_, g') => playable L g' rest
    | none => false

/-- The redo stack read from its top (the last element) downwards is a playable line
from the current engine state. -/
def redoPlayable (L : ChessLib G P) (s : AppState G) : Bool :=
  playable L s.game s.redoStack.reverse

/-- The bookkeeping of `App.js` agrees with the engine: the engine state is one that
arises, `moveHistory` is the engine's own move list, the redo stack is a playable
line, and replaying `moveHistory` from the initial position gives the engine state. -/
structure Consistent (L : ChessLib G P) (s : AppState G) : Prop where
  arises : L.Arises s.game
  history : s.moveHistory = L.history s.game
  redo : redoPlayable L s = true
  replay : replay L s.moveHistory = some s.game

/-! ## A rules engine for standard chess

`StdChess.lib` is an executable instance of `ChessLib`.  It plays standard chess
(all piece moves, castling, en passant, promotion, check and mate) and follows the
conventions of `chess.js` for move generation order, move objects and SAN.  The
engine state is the current position together with the SAN list of the game; the
serialised game handed from `pgn()` to `load_pgn()` is that list of SAN tokens. -/

namespace StdChess

/-- A board, as a number with 64 hexadecimal digits: the digit of weight `16 ^ i`
describes square `i = 8 * rank + file` (so `a1` is the lowest digit and `h8` the
highest).  Digit `0` is an empty square, `1 .. 6` are the white pawn, knight, bishop,
rook, queen and king, and `9 .. 14` the black ones. -/
abbrev Board := Nat

/-- What `chess.js` keeps besides the move list: board, side to move, castling
rights and the en-passant target square. -/
structure Position where
  board : Board
  turn : Color
  castleWK : Bool
  castleWQ : Bool
  castleBK : Bool
  castleBQ : Bool
  ep : Option Square
deriving DecidableEq

/-- Engine state: the position reached and the SAN of the moves that led to it. -/
structure Game where
  pos : Position
  sans : List String
deriving DecidableEq

/-- A candidate move, identified by origin, target and promotion piece. -/
structure Cand where
  from_ : Square
  to_ : Square
  promotion : Option PieceSymbol
deriving DecidableEq

/-- The number `n` reduced to a file or rank index. -/
def fin8 (n : Nat) : Fin 8 := ⟨n % 8, Nat.mod_lt n (by decide)⟩

/-- The square with file index `f` and rank index `r` (both below 8). -/
def sq (f r : Nat) : Square := ⟨fin8 f, fin8 r⟩

/-- A displacement by `df` files and `dr` ranks, written `(df + 2, dr + 2)`: the
displacements of chess have components `-2 .. 2`, which become `0 .. 4`. -/
abbrev Delta := Nat × Nat

/-- The square displaced by `d`, if it is on the board. -/
def offset (s : Square) (d : Delta) : Option Square :=
  let f := s.file.val + d.1
  let r := s.rank.val + d.2
  if 2 ≤ f ∧ f < 10 ∧ 2 ≤ r ∧ r < 10 then some (sq (f - 2) (r - 2)) else none

/-- The digit that describes the content of a square. -/
def code : Option Piece → Nat
  | none => 0
  | some ⟨t, c⟩ =>
    (match t with
      | PieceSymbol.p => 1
      | PieceSymbol.n => 2
      | PieceSymbol.b => 3
      | PieceSymbol.r => 4
      | PieceSymbol.q => 5
      | PieceSymbol.k => 6) +
    (match c with
      | Color.w => 0
      | Color.b => 8)

/-- The content of a square described by a digit. -/
def decode (d : Nat) : Option Piece :=
  [none, some ⟨PieceSymbol.p, Color.w⟩, some ⟨PieceSymbol.n, Color.w⟩,
    some ⟨PieceSymbol.b, Color.w⟩, some ⟨PieceSymbol.r, Color.w⟩,
    some ⟨PieceSymbol.q, Color.w⟩, some ⟨PieceSymbol.k, Color.w⟩, none, none,
    some ⟨PieceSymbol.p, Color.b⟩, some ⟨PieceSymbol.n, Color.b⟩,
    some ⟨PieceSymbol.b, Color.b⟩, some ⟨PieceSymbol.r, Color.b⟩,
    some ⟨PieceSymbol.q, Color.b⟩, some ⟨PieceSymbol.k, Color.b⟩].getD d none

/-- The weight of the digit of a square. -/
def weight (s : Square) : Nat := 16 ^ (8 * s.rank.val + s.file.val)

/-- The occupant of a square. -/
def pieceAt (b : Board) (s : Square) : Option Piece :=
  decode (b / weight s % 16)

/-- The board with the content of one square replaced. -/
def setAt (b : Board) (s : Square) (v : Option Piece) : Board :=
  b - (b / weight s % 16) * weight s + code v * weight s

/-- The other side. -/
def other : Color → Color
  | Color.w => Color.b
  | Color.b => Color.w

/-- One rank forward for the pawns of a side (`+1` for white, `-1` for black), as the
rank component of a displacement. -/
def forward : Color → Nat
  | Color.w => 3
  | Color.b => 1

/-- Two ranks forward for the pawns of a side. -/
def forward2 : Color → Nat
  | Color.w => 4
  | Color.b => 0

/-- All squares in the order in which `chess.js` scans the board: `a8 .. h8`, then
`a7 .. h7`, down to `a1 .. h1`. -/
def allSquares : List Square :=
  [7, 6, 5, 4, 3, 2, 1, 0].flatMap fun r => [0, 1, 2, 3, 4, 5, 6, 7].map fun f => sq f r

/-- The initial position of a game of chess.  The board reads, from the highest
digit, `h8 .. a8` (`r n b k q b n r` in black), the black pawns, four empty ranks,
the white pawns and `h1 .. a1`. -/
def initialPosition : Position :=
  { board := 0xcabedbac99999999000000000000000000000000000000001111111142365324
    turn := Color.w
    castleWK := true
    castleWQ := true
    castleBK := true
    castleBQ := true
    ep := none }

/-- The eight knight jumps `(±1, ±2)`, `(±2, ±1)`. -/
def knightOffsets : List Delta :=
  [(1, 4), (3, 4), (0, 3), (4, 3), (0, 1), (4, 1), (1, 0), (3, 0)]

/-- The four rook directions `(0, 1)`, `(1, 0)`, `(0, -1)`, `(-1, 0)`. -/
def rookDirs : List Delta := [(2, 3), (3, 2), (2, 1), (1, 2)]

/-- The four bishop directions `(-1, 1)`, `(1, 1)`, `(-1, -1)`, `(1, -1)`. -/
def bishopDirs : List Delta := [(1, 3), (3, 3), (1, 1), (3, 1)]

/-- The eight king steps. -/
def kingOffsets : List Delta := bishopDirs ++ rookDirs

/-- The squares of a ray from `s` in direction `d`, up to and including the first
occupied one; at most `n` steps. -/
def ray (b : Board) (s : Square) (d : Delta) : Nat → List Square
  | 0 => []
  | n + 1 =>
    match offset s d with
    | none => []
    | some t =>
      match pieceAt b t with
      | none => t :: ray b t d n
      | some _ => [t]

/-- The first piece met on a ray from `s`; at most `n` steps. -/
def rayHit (b : Board) (s : Square) (d : Delta) : Nat → Option Piece
  | 0 => none
  | n + 1 =>
    match offset s d with
    | none => none
    | some t =>
      match pieceAt b t with
      | none => rayHit b t d n
      | some p => some p

/-- Whether the square `t` (an `offset` result) holds the piece `p`. -/
def holds (b : Board) (t : Option Square) (p : Piece) : Bool :=
  match t with
  | some t => pieceAt b t == some p
  | none => false

/-- Whether side `c` attacks square `s`: a pawn of `c` one rank behind `s` (seen from
`c`) on a neighbouring file, a knight a jump away, a king next to `s`, or a rook,
bishop or queen as the first piece on a line from `s`. -/
def attacked (b : Board) (c : Color) (s : Square) : Bool :=
  holds b (offset s (3, forward (other c))) ⟨PieceSymbol.p, c⟩ ||
  holds b (offset s (1, forward (other c))) ⟨PieceSymbol.p, c⟩ ||
  knightOffsets.any (fun d => holds b (offset s d) ⟨PieceSymbol.n, c⟩) ||
  kingOffsets.any (fun d => holds b (offset s d) ⟨PieceSymbol.k, c⟩) ||
  rookDirs.any (fun d =>
    match rayHit b s d 7 with
    | some p => p.color == c && (p.type == PieceSymbol.r || p.type == PieceSymbol.q)
    | none => false) ||
  bishopDirs.any (fun d =>
    match rayHit b s d 7 with
    | some p => p.color == c && (p.type == PieceSymbol.b || p.type == PieceSymbol.q)
    | none => false)

/-- The first square at or after index `64 - n` whose digit is `d`. -/
def findDigit (b : Board) (d : Nat) : Nat → Option Square
  | 0 => none
  | n + 1 =>
    if b / 16 ^ (63 - n) % 16 = d then some (sq ((63 - n) % 8) ((63 - n) / 8))
    else findDigit b d n

/-- Whether the king of side `c` is attacked. -/
def inCheck (b : Board) (c : Color) : Bool :=
  match findDigit b (code (some ⟨PieceSymbol.k, c⟩)) 64 with
  | some k => attacked b (other c) k
  | none => false

/-- Whether a target square is free for side `us`: empty or held by the other side. -/
def freeFor (b : Board) (us : Color) (t : Square) : Bool :=
  match pieceAt b t with
  | some p => p.color != us
  | none => true

/-- Targets of a pawn on `s`: single and double advance, then the two captures
(onto an enemy piece, or onto the empty en-passant square). -/
def pawnTargets (pos : Position) (s : Square) : List Square :=
  let us := pos.turn
  let advance :=
    match offset s (2, forward us) with
    | none => []
    | some t1 =>
      if (pieceAt pos.board t1).isNone then
        t1 :: (match offset s (2, forward2 us) with
          | none => []
          | some t2 =>
            if s.rank.val = (if us = Color.w then 1 else 6) ∧ (pieceAt pos.board t2).isNone
            then [t2] else [])
      else []
  let capture (df : Nat) : List Square :=
    match offset s (df, forward us) with
    | none => []
    | some t =>
      match pieceAt pos.board t with
      | some p => if p.color = other us then [t] else []
      | none => if pos.ep = some t then [t] else []
  advance ++ capture 1 ++ capture 3

/-- The two castling targets of the king on `s`, under the conditions of `chess.js`:
the right is still held, the squares between king and rook are empty, and the king
neither stands on, passes over, nor arrives at an attacked square. -/
def castleTargets (pos : Position) (s : Square) : List Square :=
  let us := pos.turn
  let b := pos.board
  let home := sq 4 (if us = Color.w then 0 else 7)
  if s = home then
    let r := home.rank.val
    let kside := if us = Color.w then pos.castleWK else pos.castleBK
    let qside := if us = Color.w then pos.castleWQ else pos.castleBQ
    (if kside && (pieceAt b (sq 5 r)).isNone && (pieceAt b (sq 6 r)).isNone &&
        !attacked b (other us) home && !attacked b (other us) (sq 5 r) &&
        !attacked b (other us) (sq 6 r)
      then [sq 6 r] else []) ++
    (if qside && (pieceAt b (sq 3 r)).isNone && (pieceAt b (sq 2 r)).isNone &&
        (pieceAt b (sq 1 r)).isNone &&
        !attacked b (other us) home && !attacked b (other us) (sq 3 r) &&
        !attacked b (other us) (sq 2 r)
      then [sq 2 r] else [])
  else []

/-- Pseudo-legal targets of the piece `p` of the side to move standing on `s`. -/
def targets (pos : Position) (s : Square) (p : Piece) : List Square :=
  let b := pos.board
  let us := pos.turn
  let stepTo (ds : List Delta) : List Square :=
    ds.flatMap fun d =>
      match offset s d with
      | some t => if freeFor b us t then [t] else []
      | none => []
  let slide (ds : List Delta) : List Square :=
    ds.flatMap fun d => (ray b s d 7).filter (freeFor b us)
  match p.type with
  | PieceSymbol.p => pawnTargets pos s
  | PieceSymbol.n => stepTo knightOffsets
  | PieceSymbol.b => slide bishopDirs
  | PieceSymbol.r => slide rookDirs
  | PieceSymbol.q => slide (bishopDirs ++ rookDirs)
  | PieceSymbol.k => stepTo kingOffsets ++ castleTargets pos s

/-- Whether a move from `f` to `t` is a pawn move to the first or last rank. -/
def isPromotion (pos : Position) (f t : Square) : Bool :=
  (match pieceAt pos.board f with
    | some p => p.type == PieceSymbol.p
    | none => false) && (t.rank.val == 7 || t.rank.val == 0)

/-- The candidates for one origin-target pair: the four promotions (queen, rook,
bishop, knight) for a promoting pawn move, one plain move otherwise. -/
def expand (pos : Position) (f t : Square) : List Cand :=
  if isPromotion pos f t then
    [PieceSymbol.q, PieceSymbol.r, PieceSymbol.b, PieceSymbol.n].map fun x => ⟨f, t, some x⟩
  else [⟨f, t, none⟩]

/-- All pseudo-legal moves of the side to move. -/
def pseudoLegal (pos : Position) : List Cand :=
  allSquares.flatMap fun s =>
    match pieceAt pos.board s with
    | some p =>
      if p.color = pos.turn then (targets pos s p).flatMap (expand pos s) else []
    | none => []

/-- The type of the piece on a square (a pawn if the square is empty). -/
def typeAt (b : Board) (s : Square) : PieceSymbol :=
  match pieceAt b s with
  | some p => p.type
  | none => PieceSymbol.p

/-- An en-passant capture: a pawn moving to another file onto an empty square. -/
def isEnPassant (pos : Position) (c : Cand) : Bool :=
  typeAt pos.board c.from_ == PieceSymbol.p && c.from_.file != c.to_.file &&
    (pieceAt pos.board c.to_).isNone

/-- King-side castling: the king moves two files towards the h-file. -/
def isKingsideCastle (pos : Position) (c : Cand) : Bool :=
  typeAt pos.board c.from_ == PieceSymbol.k && c.to_.file.val == c.from_.file.val + 2

/-- Queen-side castling: the king moves two files towards the a-file. -/
def isQueensideCastle (pos : Position) (c : Cand) : Bool :=
  typeAt pos.board c.from_ == PieceSymbol.k && c.to_.file.val + 2 == c.from_.file.val

/-- A pawn advancing two ranks. -/
def isBigPawn (pos : Position) (c : Cand) : Bool :=
  typeAt pos.board c.from_ == PieceSymbol.p &&
    (c.to_.rank.val == c.from_.rank.val + 2 || c.to_.rank.val + 2 == c.from_.rank.val)

/-- The position after a candidate move (`make_move` of `chess.js`). -/
def applyCand (pos : Position) (c : Cand) : Position :=
  let us := pos.turn
  let b := pos.board
  let moved : Piece := ⟨c.promotion.getD (typeAt b c.from_), us⟩
  let b1 := setAt (setAt b c.from_ none) c.to_ (some moved)
  let b2 := if isEnPassant pos c then setAt b1 ⟨c.to_.file, c.from_.rank⟩ none else b1
  let r := c.from_.rank.val
  let b3 :=
    if isKingsideCastle pos c then
      setAt (setAt b2 (sq 7 r) none) (sq 5 r) (some ⟨PieceSymbol.r, us⟩)
    else if isQueensideCastle pos c then
      setAt (setAt b2 (sq 0 r) none) (sq 3 r) (some ⟨PieceSymbol.r, us⟩)
    else b2
  let king := typeAt b c.from_ == PieceSymbol.k
  let lost (mine : Color) (corner : Square) : Bool :=
    (us == mine && (king || c.from_ == corner)) || (us != mine && c.to_ == corner)
  { board := b3
    turn := other us
    castleWK := pos.castleWK && !lost Color.w (sq 7 0)
    castleWQ := pos.castleWQ && !lost Color.w (sq 0 0)
    castleBK := pos.castleBK && !lost Color.b (sq 7 7)
    castleBQ := pos.castleBQ && !lost Color.b (sq 0 7)
    ep := if isBigPawn pos c then offset c.from_ (2, forward us) else none }

/-- The legal moves: the pseudo-legal ones that do not leave the own king attacked. -/
def legal (pos : Position) : List Cand :=
  (pseudoLegal pos).filter fun c => !inCheck (applyCand pos c).board pos.turn

def fileChar (f : Fin 8) : Char := "abcdefgh".toList.getD f.val 'a'

def rankChar (r : Fin 8) : Char := "12345678".toList.getD r.val '1'

/-- The name of a square, `a1 .. h8`. -/
def algebraic (s : Square) : String := String.mk [fileChar s.file, rankChar s.rank]

/-- The upper-case letter of a piece in SAN. -/
def pieceLetter : PieceSymbol → Char
  | PieceSymbol.p => 'P'
  | PieceSymbol.n => 'N'
  | PieceSymbol.b => 'B'
  | PieceSymbol.r => 'R'
  | PieceSymbol.q => 'Q'
  | PieceSymbol.k => 'K'

/-- The origin hint of SAN (`get_disambiguator` of `chess.js`): empty unless another
legal move brings a piece of the same type from another square to the same target;
then the file, or the rank if the file is shared, or the whole square if both are. -/
def disambiguator (pos : Position) (c : Cand) : String :=
  let others := (legal pos).filter fun m =>
    typeAt pos.board m.from_ == typeAt pos.board c.from_ && m.from_ != c.from_ &&
      m.to_ == c.to_
  if others.isEmpty then ""
  else
    let sameRank := others.any fun m => m.from_.rank == c.from_.rank
    let sameFile := others.any fun m => m.from_.file == c.from_.file
    if sameRank && sameFile then algebraic c.from_
    else if sameFile then String.mk [rankChar c.from_.rank]
    else String.mk [fileChar c.from_.file]

/-- SAN without the check or mate mark. -/
def sanCore (pos : Position) (c : Cand) : String :=
  if isKingsideCastle pos c then "O-O"
  else if isQueensideCastle pos c then "O-O-O"
  else
    let piece := typeAt pos.board c.from_
    let capture := (pieceAt pos.board c.to_).isSome || isEnPassant pos c
    (if piece == PieceSymbol.p then "" else String.mk [pieceLetter piece] ++ disambiguator pos c) ++
    (if capture then
      (if piece == PieceSymbol.p then String.mk [fileChar c.from_.file] else "") ++ "x"
     else "") ++
    algebraic c.to_ ++
    (match c.promotion with
      | some x => String.mk ['=', pieceLetter x]
      | none => "")

/-- The mark appended to SAN: `#` if the move mates, `+` if it only gives check. -/
def sanMark (pos : Position) (c : Cand) : String :=
  let next := applyCand pos c
  if inCheck next.board next.turn then
    if (legal next).isEmpty then "#" else "+"
  else ""

/-- SAN of a candidate move (`move_to_san` of `chess.js`). -/
def san (pos : Position) (c : Cand) : String :=
  sanCore pos c ++ sanMark pos c

/-- The `flags` field of a move object. -/
def flagString (pos : Position) (c : Cand) : String :=
  (if isKingsideCastle pos c then "k"
   else if isQueensideCastle pos c then "q"
   else if isEnPassant pos c then "e"
   else if (pieceAt pos.board c.to_).isSome then "c"
   else if isBigPawn pos c then "b"
   else "n") ++ (if c.promotion.isSome then "p" else "")

/-- The move object describing candidate `c` played in `pos`. -/
def mkMove (pos : Position) (c : Cand) : Move :=
  { color := pos.turn
    from_ := c.from_
    to_ := c.to_
    flags := flagString pos c
    piece := typeAt pos.board c.from_
    captured :=
      if isEnPassant pos c then some PieceSymbol.p
      else (pieceAt pos.board c.to_).map fun p => p.type
    promotion := c.promotion
    san := san pos c }

/-- The legal move an argument of `move()` denotes, if any.  A SAN string denotes the
first legal move with that SAN.  An object denotes the first legal move with its
`from` and `to` whose promotion piece, if it has one, is the object's `promotion`.
`null` denotes no move. -/
def findCand (pos : Position) : MoveArg → Option Cand
  | MoveArg.san s => (legal pos).find? fun c => san pos c == s
  | MoveArg.fromTo f t x =>
    (legal pos).find? fun c =>
      c.from_ == f && c.to_ == t && (c.promotion.isNone || c.promotion == some x)
  | MoveArg.object (some m) =>
    (legal pos).find? fun c =>
      c.from_ == m.from_ && c.to_ == m.to_ && (c.promotion.isNone || c.promotion == m.promotion)
  | MoveArg.object none => none

/-- The position after the move written `s`, if `s` is the SAN of a legal move. -/
def stepSan (pos : Position) (s : String) : Option Position :=
  (findCand pos (MoveArg.san s)).map (applyCand pos)

/-- The position after playing a list of SAN moves from `pos`, if all are legal. -/
def replayFrom : Position → List String → Option Position
  | pos, [] => some pos
  | pos, s :: rest =>
    match stepSan pos s with
    | some next => replayFrom next rest
    | none => none

/-- The engine state after `new Chess()`. -/
def newChess : Game := ⟨initialPosition, []⟩

/-- Playing the SAN tokens one after another onto `g` and stopping at the first one
that is not a legal move, as the loop of `load_pgn` does. -/
def loadFrom : Game → List String → Game
  | g, [] => g
  | g, s :: rest =>
    match stepSan g.pos s with
    | some next => loadFrom ⟨next, g.sans ++ [s]⟩ rest
    | none => g

/-- The method `move`: the move object and the new state, or `none`.  The move that is
played and described is the legal move denoted by the SAN that is recorded. -/
def move (g : Game) (a : MoveArg) : Option (Move × Game) :=
  match findCand g.pos a with
  | none => none
  | some c =>
    match findCand g.pos (MoveArg.san (san g.pos c)) with
    | some c' => some (mkMove g.pos c', ⟨applyCand g.pos c', g.sans ++ [san g.pos c]⟩)
    | none => none

/-- The method `undo`: takes back the last move and returns its move object; returns
`null` and changes nothing when no move has been played. -/
def undo (g : Game) : Option Move × Game :=
  match g.sans.getLast? with
  | none => (none, g)
  | some s =>
    match replayFrom initialPosition g.sans.dropLast with
    | none => (none, g)
    | some prev =>
      match findCand prev (MoveArg.san s) with
      | none => (none, g)
      | some c => (some (mkMove prev c), ⟨prev, g.sans.dropLast⟩)

/-- The position of an engine state is the one its SAN list leads to. -/
def Valid (g : Game) : Prop :=
  replayFrom initialPosition g.sans = some g.pos

/-- The rules engine as an instance of the interface used by `App.js`. -/
def lib : ChessLib Game (List String) :=
  { newChess := newChess
    pgn := fun g => g.sans
    load_pgn := fun _ tokens => loadFrom newChess tokens
    history := fun g => g.sans
    undo := undo
    move := move
    get := fun g s => pieceAt g.pos.board s
    turn := fun g => g.pos.turn }

/-! ### Scenarios -/

/-- A click on the square with file index `f` and rank index `r`. -/
def click (f r : Nat) : Event := Event.squareClick (sq f r)

/-- The clicks of `1. e4 e5`: e2, e4, e7, e5. -/
def openingClicks : List Event := [click 4 1, click 4 3, click 4 6, click 4 4]

/-- The state after `1. e4 e5`. -/
def afterOpening : AppState Game := run lib openingClicks

/-- The state after `1. e4`, ArrowLeft and a click on d2: the redo stack holds the
undone move, and the pawn on d2 is selected. -/
def afterUndoAndSelect : AppState Game :=
  run lib [click 4 1, click 4 3, Event.keyDown "ArrowLeft", click 3 1]

/-- The state after a click on e2 in the initial position. -/
def afterSelect : AppState Game := run lib [click 4 1]

/-- The state after `1. f3 e5 2. g4` and a click on the black queen on d8. -/
def beforeMate : AppState Game :=
  run lib [click 5 1, click 5 2, click 4 6, click 4 4, click 6 1, click 6 3, click 3 7]

/-- The state after `1. f3 e5 2. g4 Qh4#`. -/
def afterMate : AppState Game := handleSquareClick lib beforeMate (sq 7 3)

/-- The state after `1. e4` and ArrowLeft. -/
def afterUndo : AppState Game :=
  run lib [click 4 1, click 4 3, Event.keyDown "ArrowLeft"]

/-- The move object of `2... Qh4#`. -/
def moveQh4 : Move :=
  { color := Color.b
    from_ := sq 3 7
    to_ := sq 7 3
    flags := "n"
    piece := PieceSymbol.q
    captured := none
    promotion := none
    san := "Qh4#" }

/-- The move object of `1... e5`. -/
def moveE5 : Move :=
  { color := Color.b
    from_ := sq 4 6
    to_ := sq 4 4
    flags := "b"
    piece := PieceSymbol.p
    captured := none
    promotion := none
    san := "e5" }

end StdChess

/-! ## The handlers, case by case -/

theorem handleKeyDown_left (L : ChessLib G P) (s : AppState G) :
    handleKeyDown L s "ArrowLeft" =
      if (L.history (gameCopyOf L s.game)).length > 0 then
        { s with
          game := (L.undo (gameCopyOf L s.game)).2
          moveHistory := s.moveHistory.dropLast
          redoStack := s.redoStack ++ [(L.undo (gameCopyOf L s.game)).1]
          selectedSquare := none }
      else s := by
  simp [handleKeyDown]

theorem handleKeyDown_right_nil (L : ChessLib G P) (s : AppState G) (h : s.redoStack = []) :
    handleKeyDown L s "ArrowRight" = s := by
  simp [handleKeyDown, h]

theorem handleKeyDown_right_snoc (L : ChessLib G P) (s : AppState G) (rs : List (Option Move))
    (top : Option Move) (h : s.redoStack = rs ++ [top]) :
    handleKeyDown L s "ArrowRight" =
      match L.move (gameCopyOf L s.game) (MoveArg.object top) with
      | some (redone, gameCopy) =>
        { s with
          game := gameCopy
          moveHistory := s.moveHistory ++ [redone.san]
          redoStack := rs
          selectedSquare := none }
      | none => s := by
  simp [handleKeyDown, h]

theorem handleKeyDown_other (L : ChessLib G P) (s : AppState G) (key : String)
    (h1 : key ≠ "ArrowLeft") (h2 : key ≠ "ArrowRight") : handleKeyDown L s key = s := by
  simp [handleKeyDown, h1, h2]

theorem handleSquareClick_selected (L : ChessLib G P) (s : AppState G)
    (origin square : Square) (hsel : s.selectedSquare = some origin) :
    handleSquareClick L s square =
      match L.move (gameCopyOf L s.game) (MoveArg.fromTo origin square PieceSymbol.q) with
      | some (move, gameCopy) =>
        { game := gameCopy
          moveHistory := s.moveHistory ++ [move.san]
          redoStack := []
          selectedSquare := none
          showCheckmateModal := if includes move.san '#' then true else s.showCheckmateModal }
      | none => { s with selectedSquare := none } := by
  unfold handleSquareClick
  rw [hsel]

theorem handleSquareClick_idle (L : ChessLib G P) (s : AppState G) (square : Square)
    (hsel : s.selectedSquare = none) :
    handleSquareClick L s square =
      match L.get s.game square with
      | some piece =>
        if piece.color = L.turn s.game then { s with selectedSquare := some square } else s
      | none => s := by
  unfold handleSquareClick
  rw [hsel]

/-! ## Consistency is an invariant -/

theorem gameCopyOf_eq (L : ChessLib G P) (hL : L.Lawful) (g : G) (hg : L.Arises g) :
    gameCopyOf L g = g :=
  hL.load_pgn_pgn g hg

theorem replayOnto_append (L : ChessLib G P) (g : G) (l1 l2 : List String) :
    replayOnto L g (l1 ++ l2) = (replayOnto L g l1).bind fun g1 => replayOnto L g1 l2 := by
  induction l1 generalizing g with
  | nil => simp [replayOnto]
  | cons x rest ih =>
    simp only [List.cons_append, replayOnto]
    cases hm : L.move g (MoveArg.san x) with
    | none => simp
    | some r => exact ih r.2

theorem arises_replayOnto (L : ChessLib G P) (l : List String) (g g' : G)
    (hg : L.Arises g) (h : replayOnto L g l = some g') : L.Arises g' := by
  induction l generalizing g with
  | nil =>
    simp only [replayOnto, Option.some.injEq] at h
    exact h ▸ hg
  | cons x rest ih =>
    simp only [replayOnto] at h
    cases hm : L.move g (MoveArg.san x) with
    | none => simp [hm] at h
    | some r =>
      rw [hm] at h
      exact ih r.2 (ChessLib.Arises.move g _ r.1 r.2 hg hm) h

theorem replay_snoc (L : ChessLib G P) (hL : L.Lawful) (l : List String) (g g' : G)
    (a : MoveArg) (m : Move) (hg : L.Arises g) (hr : replay L l = some g)
    (hm : L.move g a = some (m, g')) : replay L (l ++ [m.san]) = some g' := by
  obtain ⟨m', hm'⟩ := hL.move_san g a m g' hg hm
  unfold replay at hr ⊢
  rw [replayOnto_append, hr]
  simp [replayOnto, hm']

theorem consistent_initial (L : ChessLib G P) (hL : L.Lawful) :
    Consistent L (initialState L) where
  arises := ChessLib.Arises.fresh
  history := by simp [initialState, hL.history_new]
  redo := by simp [redoPlayable, initialState, playable]
  replay := by simp [replay, initialState, replayOnto]

theorem consistent_reset (L : ChessLib G P) (hL : L.Lawful) (s : AppState G) :
    Consistent L (resetGame L s) where
  arises := ChessLib.Arises.fresh
  history := by simp [resetGame, hL.history_new]
  redo := by simp [redoPlayable, resetGame, playable]
  replay := by simp [replay, resetGame, replayOnto]

theorem consistent_click (L : ChessLib G P) (hL : L.Lawful) (s : AppState G)
    (square : Square) (hs : Consistent L s) : Consistent L (handleSquareClick L s square) := by
  unfold handleSquareClick
  cases hsel : s.selectedSquare with
  | none =>
    simp only
    cases hget : L.get s.game square with
    | none => exact hs
    | some piece =>
      simp only
      split
      · exact ⟨hs.arises, hs.history, hs.redo, hs.replay⟩
      · exact hs
  | some origin =>
    simp only [gameCopyOf_eq L hL s.game hs.arises]
    cases hm : L.move s.game (MoveArg.fromTo origin square PieceSymbol.q) with
    | none => exact ⟨hs.arises, hs.history, hs.redo, hs.replay⟩
    | some r =>
      obtain ⟨m, g'⟩ := r
      refine ⟨ChessLib.Arises.move _ _ m g' hs.arises hm, ?_, ?_, ?_⟩
      · simp only [hs.history, hL.history_move _ _ m g' hs.arises hm]
      · simp [redoPlayable, playable]
      · exact replay_snoc L hL _ _ _ _ m hs.arises hs.replay hm

theorem undo_spec (L : ChessLib G P) (hL : L.Lawful) (g : G) (hg : L.Arises g)
    (hne : L.history g ≠ []) :
    ∃ m, (L.undo g).1 = some m ∧
      L.move (L.undo g).2 (MoveArg.object (some m)) = some (m, g) ∧
      L.history g = L.history (L.undo g).2 ++ [m.san] := by
  obtain ⟨m, h1, h2⟩ := hL.move_undo g hg hne
  exact ⟨m, h1, h2, hL.history_move _ _ m g (ChessLib.Arises.undo g hg) h2⟩

theorem playable_cons (L : ChessLib G P) (g : G) (top : Option Move)
    (rest : List (Option Move)) (h : playable L g (top :: rest) = true) :
    ∃ m g', L.move g (MoveArg.object top) = some (m, g') ∧ playable L g' rest = true := by
  simp only [playable] at h
  cases hm : L.move g (MoveArg.object top) with
  | none => simp [hm] at h
  | some r =>
    rw [hm] at h
    exact ⟨r.1, r.2, rfl, h⟩

theorem consistent_left (L : ChessLib G P) (hL : L.Lawful) (s : AppState G)
    (hs : Consistent L s) : Consistent L (handleKeyDown L s "ArrowLeft") := by
  rw [handleKeyDown_left, gameCopyOf_eq L hL s.game hs.arises]
  split
  next hlen =>
    have hne : L.history s.game ≠ [] := by
      intro h
      simp [h] at hlen
    obtain ⟨m, h1, h2, h3⟩ := undo_spec L hL s.game hs.arises hne
    have hmh : s.moveHistory = L.history (L.undo s.game).2 ++ [m.san] := hs.history.trans h3
    refine ⟨ChessLib.Arises.undo _ hs.arises, ?_, ?_, ?_⟩
    · simp only [hmh, List.dropLast_concat]
    · have hr := hs.redo
      simp only [redoPlayable] at hr ⊢
      simp only [h1, List.reverse_append, List.reverse_cons, List.reverse_nil, List.nil_append,
        List.singleton_append, playable, h2]
      exact hr
    · have hr := hs.replay
      rw [hmh] at hr
      simp only [hmh, List.dropLast_concat]
      unfold replay at hr ⊢
      rw [replayOnto_append] at hr
      cases hp : replayOnto L L.newChess (L.history (L.undo s.game).2) with
      | none => simp [hp] at hr
      | some g1 =>
        rw [hp] at hr
        simp only [Option.some_bind, replayOnto] at hr
        cases hm : L.move g1 (MoveArg.san m.san) with
        | none => simp [hm] at hr
        | some r =>
          rw [hm] at hr
          simp only [Option.some.injEq] at hr
          have hg1 : L.Arises g1 := arises_replayOnto L _ _ g1 ChessLib.Arises.fresh hp
          have hu := hL.undo_move g1 _ r.1 r.2 hg1 hm
          rw [hr] at hu
          rw [hu]
  next => exact hs

theorem consistent_right (L : ChessLib G P) (hL : L.Lawful) (s : AppState G)
    (hs : Consistent L s) : Consistent L (handleKeyDown L s "ArrowRight") := by
  rcases List.eq_nil_or_concat s.redoStack with hnil | ⟨rs, top, hsnoc⟩
  · rw [handleKeyDown_right_nil L s hnil]
    exact hs
  · rw [List.concat_eq_append] at hsnoc
    rw [handleKeyDown_right_snoc L s rs top hsnoc, gameCopyOf_eq L hL s.game hs.arises]
    have hr := hs.redo
    simp only [redoPlayable, hsnoc, List.reverse_append, List.reverse_cons, List.reverse_nil,
      List.nil_append, List.singleton_append] at hr
    obtain ⟨m, g', hm, hrest⟩ := playable_cons L s.game top rs.reverse hr
    rw [hm]
    refine ⟨ChessLib.Arises.move _ _ m g' hs.arises hm, ?_, ?_, ?_⟩
    · simp only [hs.history, hL.history_move _ _ m g' hs.arises hm]
    · simpa [redoPlayable] using hrest
    · exact replay_snoc L hL _ _ _ _ m hs.arises hs.replay hm

theorem consistent_keyDown (L : ChessLib G P) (hL : L.Lawful) (s : AppState G)
    (key : String) (hs : Consistent L s) : Consistent L (handleKeyDown L s key) := by
  by_cases h1 : key = "ArrowLeft"
  · rw [h1]
    exact consistent_left L hL s hs
  · by_cases h2 : key = "ArrowRight"
    · rw [h2]
      exact consistent_right L hL s hs
    · rw [handleKeyDown_other L s key h1 h2]
      exact hs

theorem consistent_closeModal (L : ChessLib G P) (s : AppState G) (hs : Consistent L s) :
    Consistent L (closeModal s) :=
  ⟨hs.arises, hs.history, hs.redo, hs.replay⟩

theorem consistent_step (L : ChessLib G P) (hL : L.Lawful) (s : AppState G) (e : Event)
    (hs : Consistent L s) : Consistent L (step L s e) := by
  cases e with
  | squareClick square => exact consistent_click L hL s square hs
  | keyDown key => exact consistent_keyDown L hL s key hs
  | reset => exact consistent_reset L hL s
  | closeModal => exact consistent_closeModal L s hs
  | playAgain => exact consistent_closeModal L _ (consistent_reset L hL s)

theorem consistent_of_reachable (L : ChessLib G P) (hL : L.Lawful) (s : AppState G)
    (hs : Reachable L s) : Consistent L s := by
  induction hs with
  | init => exact consistent_initial L hL
  | step s e _ ih => exact consistent_step L hL s e ih

theorem reachable_run (L : ChessLib G P) (events : List Event) : Reachable L (run L events) := by
  have h : ∀ (s : AppState G), Reachable L s → Reachable L (events.foldl (step L) s) := by
    induction events with
    | nil => intro s hs; exact hs
    | cons e rest ih => intro s hs; exact ih _ (Reachable.step s e hs)
  exact h _ Reachable.init

/-! ## The rules engine satisfies the laws -/

namespace StdChess

theorem replayFrom_append (p : Position) (l1 l2 : List String) :
    replayFrom p (l1 ++ l2) = (replayFrom p l1).bind fun q => replayFrom q l2 := by
  induction l1 generalizing p with
  | nil => simp [replayFrom]
  | cons x rest ih =>
    simp only [List.cons_append, replayFrom]
    cases stepSan p x with
    | none => simp
    | some next => exact ih next

theorem replayFrom_snoc (p q : Position) (l : List String) (x : String)
    (h : replayFrom p l = some q) : replayFrom p (l ++ [x]) = stepSan q x := by
  rw [replayFrom_append, h]
  simp only [Option.some_bind, replayFrom]
  cases stepSan q x <;> rfl

theorem loadFrom_of_replayFrom (l : List String) (g : Game) (q : Position)
    (h : replayFrom g.pos l = some q) : loadFrom g l = ⟨q, g.sans ++ l⟩ := by
  induction l generalizing g with
  | nil =>
    simp only [replayFrom, Option.some.injEq] at h
    simp [loadFrom, ← h]
  | cons x rest ih =>
    simp only [replayFrom] at h
    simp only [loadFrom]
    cases hx : stepSan g.pos x with
    | none => simp [hx] at h
    | some next =>
      rw [hx] at h
      simp only
      rw [ih ⟨next, g.sans ++ [x]⟩ h]
      simp

theorem valid_loadFrom (l : List String) (g : Game) (hg : Valid g) : Valid (loadFrom g l) := by
  induction l generalizing g with
  | nil => exact hg
  | cons x rest ih =>
    simp only [loadFrom]
    cases hx : stepSan g.pos x with
    | none => exact hg
    | some next =>
      apply ih
      unfold Valid
      rw [replayFrom_snoc _ _ _ _ hg, hx]

theorem findCand_san (pos : Position) (s : String) (c : Cand)
    (h : findCand pos (MoveArg.san s) = some c) : san pos c = s ∧ c ∈ legal pos := by
  simp only [findCand] at h
  refine ⟨?_, List.mem_of_find?_eq_some h⟩
  have := List.find?_some h
  simpa using this

theorem move_eq (g : Game) (a : MoveArg) (m : Move) (g' : Game)
    (h : move g a = some (m, g')) :
    ∃ c', findCand g.pos (MoveArg.san m.san) = some c' ∧ m = mkMove g.pos c' ∧
      g' = ⟨applyCand g.pos c', g.sans ++ [m.san]⟩ := by
  unfold move at h
  cases hc : findCand g.pos a with
  | none => simp [hc] at h
  | some c =>
    rw [hc] at h
    simp only at h
    cases hc' : findCand g.pos (MoveArg.san (san g.pos c)) with
    | none => simp [hc'] at h
    | some c' =>
      rw [hc'] at h
      simp only [Option.some.injEq, Prod.mk.injEq] at h
      have hs : san g.pos c' = san g.pos c := (findCand_san _ _ _ hc').1
      have hm : m.san = san g.pos c := by rw [← h.1]; exact hs
      refine ⟨c', ?_, h.1.symm, ?_⟩
      · rw [hm]
        exact hc'
      · rw [hm]
        exact h.2.symm

theorem move_of_findCand (g : Game) (c' : Cand) (s : String)
    (h : findCand g.pos (MoveArg.san s) = some c') :
    move g (MoveArg.san s) = some (mkMove g.pos c', ⟨applyCand g.pos c', g.sans ++ [s]⟩) := by
  have hs : san g.pos c' = s := (findCand_san _ _ _ h).1
  unfold move
  rw [h]
  simp only [hs, h]

theorem stepSan_of_findCand (pos : Position) (s : String) (c : Cand)
    (h : findCand pos (MoveArg.san s) = some c) : stepSan pos s = some (applyCand pos c) := by
  simp [stepSan, h]

theorem valid_move (g : Game) (a : MoveArg) (m : Move) (g' : Game) (hg : Valid g)
    (h : move g a = some (m, g')) : Valid g' := by
  obtain ⟨c', hc', _, hg'⟩ := move_eq g a m g' h
  rw [hg']
  unfold Valid
  rw [replayFrom_snoc _ _ _ _ hg, stepSan_of_findCand _ _ _ hc']

theorem undo_snoc (g : Game) (l : List String) (x : String) (prev : Position) (c : Cand)
    (hl : g.sans = l ++ [x]) (hp : replayFrom initialPosition l = some prev)
    (hc : findCand prev (MoveArg.san x) = some c) :
    undo g = (some (mkMove prev c), ⟨prev, l⟩) := by
  unfold undo
  simp [hl, hp, hc]

theorem valid_snoc (g : Game) (l : List String) (x : String) (hg : Valid g)
    (hl : g.sans = l ++ [x]) :
    ∃ prev c, replayFrom initialPosition l = some prev ∧
      findCand prev (MoveArg.san x) = some c ∧ applyCand prev c = g.pos := by
  unfold Valid at hg
  rw [hl, replayFrom_append] at hg
  cases hp : replayFrom initialPosition l with
  | none => simp [hp] at hg
  | some prev =>
    rw [hp] at hg
    simp only [Option.some_bind, replayFrom] at hg
    cases hx : stepSan prev x with
    | none => simp [hx] at hg
    | some next =>
      rw [hx] at hg
      simp only [Option.some.injEq] at hg
      simp only [stepSan, Option.map_eq_some'] at hx
      obtain ⟨c, hc, hnext⟩ := hx
      exact ⟨prev, c, rfl, hc, hnext.trans hg⟩

theorem valid_undo (g : Game) (hg : Valid g) : Valid (undo g).2 := by
  rcases List.eq_nil_or_concat g.sans with hnil | ⟨l, x, hl⟩
  · unfold undo
    simp [hnil, hg]
  · rw [List.concat_eq_append] at hl
    obtain ⟨prev, c, hp, hc, _⟩ := valid_snoc g l x hg hl
    rw [undo_snoc g l x prev c hl hp hc]
    exact hp

theorem valid_of_arises (g : Game) (h : lib.Arises g) : Valid g := by
  induction h with
  | fresh => rfl
  | load g _ ih => exact valid_loadFrom _ _ rfl
  | move g a m g' _ hm ih => exact valid_move g a m g' ih hm
  | undo g _ ih => exact valid_undo g ih

theorem promotion_of_mem_expand (pos : Position) (f t : Square) (c : Cand)
    (h : c ∈ expand pos f t) :
    c.from_ = f ∧ c.to_ = t ∧ c.promotion.isSome = isPromotion pos f t := by
  unfold expand at h
  split at h
  next hp =>
    simp only [List.map_cons, List.map_nil, List.mem_cons, List.mem_singleton,
      List.not_mem_nil, or_false] at h
    rcases h with h | h | h | h <;> simp [h, hp]
  next hp =>
    simp only [List.mem_singleton] at h
    simp [h, hp]

theorem promotion_of_mem_legal (pos : Position) (c : Cand) (h : c ∈ legal pos) :
    c.promotion.isSome = isPromotion pos c.from_ c.to_ := by
  have hp : c ∈ pseudoLegal pos := (List.mem_filter.mp h).1
  simp only [pseudoLegal, List.mem_flatMap] at hp
  obtain ⟨s, _, hs⟩ := hp
  split at hs
  next p _ =>
    split at hs
    · simp only [List.mem_flatMap] at hs
      obtain ⟨t, _, ht⟩ := hs
      obtain ⟨h1, h2, h3⟩ := promotion_of_mem_expand pos s t c ht
      rw [h1, h2, h3]
    · simp at hs
  next => simp at hs

theorem findCand_object (pos : Position) (c : Cand) (h : c ∈ legal pos) :
    findCand pos (MoveArg.object (some (mkMove pos c))) = some c := by
  simp only [findCand, mkMove]
  cases hf : (legal pos).find? (fun c2 => c2.from_ == c.from_ && c2.to_ == c.to_ &&
      (c2.promotion.isNone || c2.promotion == c.promotion)) with
  | none =>
    rw [List.find?_eq_none] at hf
    have := hf c h
    simp at this
  | some c2 =>
    have hmem := List.mem_of_find?_eq_some hf
    have hp := List.find?_some hf
    simp only [Bool.and_eq_true, beq_iff_eq, Bool.or_eq_true] at hp
    obtain ⟨⟨hfrom, hto⟩, hpromo⟩ := hp
    have h2 := promotion_of_mem_legal pos c2 hmem
    have h1 := promotion_of_mem_legal pos c h
    rw [hfrom, hto, ← h1] at h2
    have : c2.promotion = c.promotion := by
      rcases hpromo with hnone | heq
      · cases hc2 : c2.promotion with
        | none =>
          cases hc : c.promotion with
          | none => rfl
          | some x => simp [hc2, hc] at h2
        | some x => simp [hc2] at hnone
      · exact heq
    congr 1
    cases c2
    cases c
    simp_all

theorem lib_lawful : lib.Lawful where
  load_pgn_pgn := by
    intro g hg
    have hv := valid_of_arises g hg
    show loadFrom newChess g.sans = g
    rw [loadFrom_of_replayFrom g.sans newChess g.pos hv]
    simp [newChess]
  history_new := rfl
  history_move := by
    intro g a m g' _ hm
    obtain ⟨c', _, _, hg'⟩ := move_eq g a m g' hm
    show g'.sans = g.sans ++ [m.san]
    rw [hg']
  undo_move := by
    intro g a m g' hg hm
    have hv := valid_of_arises g hg
    obtain ⟨c', hc', hmk, hg'⟩ := move_eq g a m g' hm
    show undo g' = (some m, g)
    rw [undo_snoc g' g.sans m.san g.pos c' (by rw [hg']) hv hc', hmk]
  move_undo := by
    intro g hg hne
    have hv := valid_of_arises g hg
    rcases List.eq_nil_or_concat g.sans with hnil | ⟨l, x, hl⟩
    · exact absurd hnil hne
    · rw [List.concat_eq_append] at hl
      obtain ⟨prev, c, hp, hc, happ⟩ := valid_snoc g l x hv hl
      have hu : lib.undo g = (some (mkMove prev c), ⟨prev, l⟩) := undo_snoc g l x prev c hl hp hc
      refine ⟨mkMove prev c, by rw [hu], ?_⟩
      rw [hu]
      show move ⟨prev, l⟩ (MoveArg.object (some (mkMove prev c))) = some (mkMove prev c, g)
      obtain ⟨hsan, hmem⟩ := findCand_san prev x c hc
      unfold move
      simp only [findCand_object prev c hmem, hsan, hc, happ, ← hl]
  move_san := by
    intro g a m g' _ hm
    obtain ⟨c', hc', hmk, hg'⟩ := move_eq g a m g' hm
    refine ⟨mkMove g.pos c', ?_⟩
    show move g (MoveArg.san m.san) = _
    rw [move_of_findCand g c' m.san hc', hg']

end StdChess

/-! ## The claims -/

/-- C1: in every reachable state in which at least one move has been played, ArrowLeft
(undo) takes the last entry off `moveHistory` and puts the descriptor of the undone
move on top of `redoStack`, and an immediately following ArrowRight (redo) gives back
the engine state, the `moveHistory` and the `redoStack` held before the undo. -/
theorem undo_redo_restores (L : ChessLib G P) (hL : L.Lawful) (s : AppState G)
    (hs : Reachable L s) (hm : s.moveHistory ≠ []) :
    (∃ m : Move, s.moveHistory.getLast? = some m.san ∧
      (handleKeyDown L s "ArrowLeft").moveHistory = s.moveHistory.dropLast ∧
      (handleKeyDown L s "ArrowLeft").redoStack = s.redoStack ++ [some m]) ∧
    (handleKeyDown L (handleKeyDown L s "ArrowLeft") "ArrowRight").game = s.game ∧
    (handleKeyDown L (handleKeyDown L s "ArrowLeft") "ArrowRight").moveHistory = s.moveHistory ∧
    (handleKeyDown L (handleKeyDown L s "ArrowLeft") "ArrowRight").redoStack = s.redoStack := by
  have hc := consistent_of_reachable L hL s hs
  have hne : L.history s.game ≠ [] := hc.history ▸ hm
  have hlen : (L.history s.game).length > 0 := List.length_pos.mpr hne
  obtain ⟨m, h1, h2, h3⟩ := undo_spec L hL s.game hc.arises hne
  have hmh : s.moveHistory = L.history (L.undo s.game).2 ++ [m.san] := hc.history.trans h3
  have hleft : handleKeyDown L s "ArrowLeft" =
      { s with
        game := (L.undo s.game).2
        moveHistory := s.moveHistory.dropLast
        redoStack := s.redoStack ++ [some m]
        selectedSquare := none } := by
    rw [handleKeyDown_left, gameCopyOf_eq L hL s.game hc.arises, if_pos hlen, h1]
  have hright := handleKeyDown_right_snoc L (handleKeyDown L s "ArrowLeft") s.redoStack
    (some m) (by rw [hleft])
  have hgame : (handleKeyDown L s "ArrowLeft").game = (L.undo s.game).2 := by rw [hleft]
  rw [hgame, gameCopyOf_eq L hL _ (ChessLib.Arises.undo _ hc.arises), h2] at hright
  refine ⟨⟨m, ?_, ?_, ?_⟩, ?_, ?_, ?_⟩
  · rw [hmh]
    simp
  · rw [hleft]
  · rw [hleft]
  · rw [hright]
  · rw [hright, hleft]
    simp only [hmh, List.dropLast_concat]
  · rw [hright]

/-- C2: when a click with a selected origin square applies a move, `redoStack` is empty
afterwards, whatever it held before, and an immediately following ArrowRight changes
nothing. -/
theorem new_move_clears_redo (L : ChessLib G P) (s : AppState G) (origin square : Square)
    (hsel : s.selectedSquare = some origin)
    (hmove : (L.move (gameCopyOf L s.game)
      (MoveArg.fromTo origin square PieceSymbol.q)).isSome = true) :
    (handleSquareClick L s square).redoStack = [] ∧
    handleKeyDown L (handleSquareClick L s square) "ArrowRight" =
      handleSquareClick L s square := by
  have h : (handleSquareClick L s square).redoStack = [] := by
    rw [handleSquareClick_selected L s origin square hsel]
    cases hm : L.move (gameCopyOf L s.game) (MoveArg.fromTo origin square PieceSymbol.q) with
    | none => simp [hm] at hmove
    | some r => rfl
  exact ⟨h, handleKeyDown_right_nil L _ h⟩

/-- C3: when the engine rejects the move from the selected origin square to the clicked
square (promotion `'q'`), the click changes nothing but the selection, which becomes
none: engine state, `moveHistory`, `redoStack` and `showCheckmateModal` are as before. -/
theorem rejected_move_keeps_state (L : ChessLib G P) (s : AppState G)
    (origin square : Square) (hsel : s.selectedSquare = some origin)
    (hrej : L.move (gameCopyOf L s.game) (MoveArg.fromTo origin square PieceSymbol.q) = none) :
    handleSquareClick L s square = { s with selectedSquare := none } ∧
    (handleSquareClick L s square).game = s.game ∧
    (handleSquareClick L s square).moveHistory = s.moveHistory ∧
    (handleSquareClick L s square).redoStack = s.redoStack ∧
    (handleSquareClick L s square).showCheckmateModal = s.showCheckmateModal ∧
    (handleSquareClick L s square).selectedSquare = none := by
  have h : handleSquareClick L s square = { s with selectedSquare := none } := by
    rw [handleSquareClick_selected L s origin square hsel, hrej]
  rw [h]
  exact ⟨rfl, rfl, rfl, rfl, rfl, rfl⟩

theorem selection_step (L : ChessLib G P) (s : AppState G) (e : Event)
    (hs : ∀ sq, s.selectedSquare = some sq →
      ∃ p, L.get s.game sq = some p ∧ p.color = L.turn s.game) :
    ∀ sq, (step L s e).selectedSquare = some sq →
      ∃ p, L.get (step L s e).game sq = some p ∧ p.color = L.turn (step L s e).game := by
  cases e with
  | squareClick square =>
    simp only [step]
    cases hsel : s.selectedSquare with
    | some origin =>
      rw [handleSquareClick_selected L s origin square hsel]
      cases L.move (gameCopyOf L s.game) (MoveArg.fromTo origin square PieceSymbol.q) with
      | none => intro sq h; simp at h
      | some r => intro sq h; simp at h
    | none =>
      rw [handleSquareClick_idle L s square hsel]
      cases hget : L.get s.game square with
      | none => exact hs
      | some piece =>
        simp only
        split
        next hcol =>
          intro sq h
          simp only [Option.some.injEq] at h
          subst h
          exact ⟨piece, hget, hcol⟩
        next => exact hs
  | keyDown key =>
    simp only [step]
    by_cases h1 : key = "ArrowLeft"
    · rw [h1, handleKeyDown_left]
      split
      · intro sq h; simp at h
      · exact hs
    · by_cases h2 : key = "ArrowRight"
      · rw [h2]
        rcases List.eq_nil_or_concat s.redoStack with hnil | ⟨rs, top, hsnoc⟩
        · rw [handleKeyDown_right_nil L s hnil]
          exact hs
        · rw [List.concat_eq_append] at hsnoc
          rw [handleKeyDown_right_snoc L s rs top hsnoc]
          cases L.move (gameCopyOf L s.game) (MoveArg.object top) with
          | none => exact hs
          | some r => intro sq h; simp at h
      · rw [handleKeyDown_other L s key h1 h2]
        exact hs
  | reset => intro sq h; simp [step, resetGame] at h
  | closeModal => exact hs
  | playAgain => intro sq h; simp [step, playAgain, closeModal, resetGame] at h

/-- C4: in every reachable state the selected square, if there is one, holds in the
current engine position a piece of the side whose turn it is; and a click on an empty
square or on a piece of the other side while nothing is selected leaves the selection
none. -/
theorem selection_is_own_piece (L : ChessLib G P) :
    (∀ s : AppState G, Reachable L s → ∀ sq, s.selectedSquare = some sq →
      ∃ p, L.get s.game sq = some p ∧ p.color = L.turn s.game) ∧
    (∀ (s : AppState G) (square : Square), s.selectedSquare = none →
      (L.get s.game square = none ∨
        ∃ p, L.get s.game square = some p ∧ p.color ≠ L.turn s.game) →
      (handleSquareClick L s square).selectedSquare = none) := by
  constructor
  · intro s hs
    induction hs with
    | init => intro sq h; simp [initialState] at h
    | step s e _ ih => exact selection_step L s e ih
  · intro s square hsel h
    rw [handleSquareClick_idle L s square hsel]
    rcases h with h | ⟨p, hp, hcol⟩
    · rw [h]
      exact hsel
    · rw [hp]
      simp only [if_neg hcol]
      exact hsel

/-- C5: whatever the prior state, `resetGame` yields a freshly constructed initial
engine state, an empty `moveHistory`, an empty `redoStack` and no selection. -/
theorem resetGame_yields_initial (L : ChessLib G P) (s : AppState G) :
    (resetGame L s).game = L.newChess ∧
    (resetGame L s).moveHistory = [] ∧
    (resetGame L s).redoStack = [] ∧
    (resetGame L s).selectedSquare = none :=
  ⟨rfl, rfl, rfl, rfl⟩

/-- C6: in every reachable state `moveHistory` is exactly the engine's own move list in
SAN, replaying it from the initial position gives the engine's current state, and so
the guard of ArrowLeft on the engine's history length fails, and ArrowLeft is a no-op,
exactly when `moveHistory` is empty. -/
theorem moveHistory_is_engine_history (L : ChessLib G P) (hL : L.Lawful) (s : AppState G)
    (hs : Reachable L s) :
    s.moveHistory = L.history s.game ∧
    replay L s.moveHistory = some s.game ∧
    ((L.history (gameCopyOf L s.game)).length > 0 ↔ s.moveHistory ≠ []) ∧
    (handleKeyDown L s "ArrowLeft" = s ↔ s.moveHistory = []) := by
  have hc := consistent_of_reachable L hL s hs
  have hguard : (L.history (gameCopyOf L s.game)).length > 0 ↔ s.moveHistory ≠ [] := by
    rw [gameCopyOf_eq L hL s.game hc.arises, ← hc.history]
    exact List.length_pos
  refine ⟨hc.history, hc.replay, hguard, ?_⟩
  rw [handleKeyDown_left]
  constructor
  · intro h
    by_contra hne
    rw [if_pos (hguard.mpr hne)] at h
    have hlen := congrArg (fun t => t.moveHistory.length) h
    simp only [List.length_dropLast] at hlen
    have := List.length_pos.mpr hne
    omega
  · intro h
    rw [if_neg]
    rw [hguard]
    simp [h]

/-- C7: in every reachable state the descriptors of `redoStack`, from the top (last
element) downwards, form a line that can be played from the current engine state; so
whenever `redoStack` is not empty, ArrowRight re-applies its top descriptor
successfully, removes exactly that descriptor and appends exactly one SAN entry, the
SAN of the move played again, to `moveHistory`. -/
theorem redo_succeeds (L : ChessLib G P) (hL : L.Lawful) (s : AppState G)
    (hs : Reachable L s) :
    redoPlayable L s = true ∧
    (∀ hne : s.redoStack ≠ [], ∃ m g',
      L.move (gameCopyOf L s.game) (MoveArg.object (s.redoStack.getLast hne)) = some (m, g') ∧
      handleKeyDown L s "ArrowRight" =
        { s with
          game := g'
          moveHistory := s.moveHistory ++ [m.san]
          redoStack := s.redoStack.dropLast
          selectedSquare := none }) := by
  have hc := consistent_of_reachable L hL s hs
  refine ⟨hc.redo, ?_⟩
  intro hne
  rcases List.eq_nil_or_concat s.redoStack with hnil | ⟨rs, top, hsnoc⟩
  · exact absurd hnil hne
  · rw [List.concat_eq_append] at hsnoc
    have hr := hc.redo
    simp only [redoPlayable, hsnoc, List.reverse_append, List.reverse_cons, List.reverse_nil,
      List.nil_append, List.singleton_append] at hr
    obtain ⟨m, g', hm, _⟩ := playable_cons L s.game top rs.reverse hr
    have hlast : s.redoStack.getLast hne = top := by
      simp [hsnoc]
    refine ⟨m, g', ?_, ?_⟩
    · rw [hlast, gameCopyOf_eq L hL s.game hc.arises, hm]
    · rw [handleKeyDown_right_snoc L s rs top hsnoc, gameCopyOf_eq L hL s.game hc.arises, hm]
      simp [hsnoc]

/-- C8: with a selected origin square, a click whose move is applied with a SAN that
contains `#` leaves `showCheckmateModal` true; a move applied with a SAN without `#`,
and a rejected move, leave `showCheckmateModal` as it was.  The new value is a function
of the SAN string and the old value only. -/
theorem checkmate_modal_from_san (L : ChessLib G P) (s : AppState G) (origin square : Square)
    (hsel : s.selectedSquare = some origin) :
    (∀ m g', L.move (gameCopyOf L s.game) (MoveArg.fromTo origin square PieceSymbol.q) =
        some (m, g') → includes m.san '#' = true →
      (handleSquareClick L s square).showCheckmateModal = true) ∧
    (∀ m g', L.move (gameCopyOf L s.game) (MoveArg.fromTo origin square PieceSymbol.q) =
        some (m, g') → includes m.san '#' = false →
      (handleSquareClick L s square).showCheckmateModal = s.showCheckmateModal) ∧
    (L.move (gameCopyOf L s.game) (MoveArg.fromTo origin square PieceSymbol.q) = none →
      (handleSquareClick L s square).showCheckmateModal = s.showCheckmateModal) := by
  rw [handleSquareClick_selected L s origin square hsel]
  refine ⟨?_, ?_, ?_⟩
  · intro m g' hm hinc
    rw [hm]
    simp [hinc]
  · intro m g' hm hinc
    rw [hm]
    simp [hinc]
  · intro hm
    rw [hm]

/-- C9, as amended: `resetGame` leaves `showCheckmateModal` as it was; the flag is
cleared by the buttons of the modal, among them "Play Again", which calls `resetGame`
and then sets the flag to false. -/
theorem resetGame_keeps_modal (L : ChessLib G P) (s : AppState G) :
    (resetGame L s).showCheckmateModal = s.showCheckmateModal ∧
    (playAgain L s).showCheckmateModal = false ∧
    (playAgain L s).game = L.newChess ∧
    (closeModal s).showCheckmateModal = false :=
  ⟨rfl, rfl, rfl, rfl⟩

/-- C10, as amended: ArrowLeft leaves `selectedSquare` none when the engine history is
not empty (the undo is performed) and as it was otherwise; ArrowRight leaves
`selectedSquare` none when `redoStack` is not empty and its top move is applied again,
and as it was otherwise. -/
theorem arrow_keys_selection (L : ChessLib G P) (s : AppState G) :
    (handleKeyDown L s "ArrowLeft").selectedSquare =
      (if (L.history (gameCopyOf L s.game)).length > 0 then none else s.selectedSquare) ∧
    (handleKeyDown L s "ArrowRight").selectedSquare =
      (match s.redoStack.getLast? with
        | some top =>
          if (L.move (gameCopyOf L s.game) (MoveArg.object top)).isSome then none
          else s.selectedSquare
        | none => s.selectedSquare) := by
  constructor
  · rw [handleKeyDown_left]
    split <;> rfl
  · rcases List.eq_nil_or_concat s.redoStack with hnil | ⟨rs, top, hsnoc⟩
    · rw [handleKeyDown_right_nil L s hnil, hnil]
      rfl
    · rw [List.concat_eq_append] at hsnoc
      have hl : (rs ++ [top]).getLast? = some top := by simp
      rw [handleKeyDown_right_snoc L s rs top hsnoc, hsnoc, hl]
      cases hm : L.move (gameCopyOf L s.game) (MoveArg.object top) with
      | none => simp [hm]
      | some r => simp [hm]

/-! ## The claims on the standard chess engine -/

namespace StdChess

theorem afterOpening_facts :
    afterOpening.moveHistory = ["e4", "e5"] ∧
    afterOpening.redoStack = [] ∧
    (handleKeyDown lib afterOpening "ArrowLeft").moveHistory = ["e4"] ∧
    (handleKeyDown lib afterOpening "ArrowLeft").redoStack = [some moveE5] ∧
    (handleKeyDown lib (handleKeyDown lib afterOpening "ArrowLeft") "ArrowRight").moveHistory =
      ["e4", "e5"] ∧
    (handleKeyDown lib (handleKeyDown lib afterOpening "ArrowLeft") "ArrowRight").redoStack =
      [] := by
  decide!

theorem afterUndoAndSelect_facts :
    afterUndoAndSelect.selectedSquare = some (sq 3 1) ∧
    afterUndoAndSelect.redoStack ≠ [] ∧
    (lib.move (gameCopyOf lib afterUndoAndSelect.game)
      (MoveArg.fromTo (sq 3 1) (sq 3 3) PieceSymbol.q)).isSome = true := by
  decide!

theorem afterSelect_facts :
    afterSelect.selectedSquare = some (sq 4 1) ∧
    lib.move (gameCopyOf lib afterSelect.game)
      (MoveArg.fromTo (sq 4 1) (sq 4 4) PieceSymbol.q) = none ∧
    (initialState lib).selectedSquare = none ∧
    lib.get (initialState lib).game (sq 4 3) = none ∧
    lib.get (initialState lib).game (sq 4 6) = some ⟨PieceSymbol.p, Color.b⟩ ∧
    lib.turn (initialState lib).game = Color.w := by
  decide!

theorem beforeMate_facts :
    beforeMate.selectedSquare = some (sq 3 7) ∧
    beforeMate.showCheckmateModal = false ∧
    lib.move (gameCopyOf lib beforeMate.game)
      (MoveArg.fromTo (sq 3 7) (sq 7 3) PieceSymbol.q) = some (moveQh4, afterMate.game) := by
  decide!

theorem afterUndo_facts : afterUndo.redoStack ≠ [] ∧ afterUndo.moveHistory = [] := by
  decide!

end StdChess

/-- C1 on the engine for standard chess: after e2-e4, e7-e5, ArrowLeft gives
`moveHistory = ["e4"]` with the descriptor of e7-e5 on `redoStack`, and the following
ArrowRight gives `moveHistory = ["e4", "e5"]` with an empty `redoStack` and the engine
state held before the undo. -/
theorem undo_redo_restores_witness :
    (StdChess.afterOpening.moveHistory = ["e4", "e5"] ∧
      (handleKeyDown StdChess.lib StdChess.afterOpening "ArrowLeft").moveHistory = ["e4"] ∧
      (handleKeyDown StdChess.lib StdChess.afterOpening "ArrowLeft").redoStack =
        [some StdChess.moveE5] ∧
      (handleKeyDown StdChess.lib (handleKeyDown StdChess.lib StdChess.afterOpening "ArrowLeft")
        "ArrowRight").moveHistory = ["e4", "e5"] ∧
      (handleKeyDown StdChess.lib (handleKeyDown StdChess.lib StdChess.afterOpening "ArrowLeft")
        "ArrowRight").redoStack = []) ∧
    (handleKeyDown StdChess.lib (handleKeyDown StdChess.lib StdChess.afterOpening "ArrowLeft")
      "ArrowRight").game = StdChess.afterOpening.game ∧
    (handleKeyDown StdChess.lib (handleKeyDown StdChess.lib StdChess.afterOpening "ArrowLeft")
      "ArrowRight").moveHistory = StdChess.afterOpening.moveHistory ∧
    (handleKeyDown StdChess.lib (handleKeyDown StdChess.lib StdChess.afterOpening "ArrowLeft")
      "ArrowRight").redoStack = StdChess.afterOpening.redoStack :=
  have f := StdChess.afterOpening_facts
  ⟨⟨f.1, f.2.2.1, f.2.2.2.1, f.2.2.2.2.1, f.2.2.2.2.2⟩,
    (undo_redo_restores StdChess.lib StdChess.lib_lawful StdChess.afterOpening
      (reachable_run StdChess.lib StdChess.openingClicks)
      (by rw [f.1]; exact List.cons_ne_nil _ _)).2⟩

/-- C2 on the engine for standard chess: after `1. e4` and ArrowLeft the redo stack is
not empty; playing `1. d4` instead empties it, and ArrowRight then changes nothing. -/
theorem new_move_clears_redo_witness :
    StdChess.afterUndoAndSelect.redoStack ≠ [] ∧
    (handleSquareClick StdChess.lib StdChess.afterUndoAndSelect (StdChess.sq 3 3)).redoStack =
      [] ∧
    handleKeyDown StdChess.lib
        (handleSquareClick StdChess.lib StdChess.afterUndoAndSelect (StdChess.sq 3 3))
        "ArrowRight" =
      handleSquareClick StdChess.lib StdChess.afterUndoAndSelect (StdChess.sq 3 3) :=
  ⟨StdChess.afterUndoAndSelect_facts.2.1,
    new_move_clears_redo StdChess.lib StdChess.afterUndoAndSelect (StdChess.sq 3 1)
      (StdChess.sq 3 3) StdChess.afterUndoAndSelect_facts.1
      StdChess.afterUndoAndSelect_facts.2.2⟩

/-- C3 on the engine for standard chess: with e2 selected in the initial position, a
click on e5 is rejected and only clears the selection. -/
theorem rejected_move_keeps_state_witness :
    handleSquareClick StdChess.lib StdChess.afterSelect (StdChess.sq 4 4) =
      { StdChess.afterSelect with selectedSquare := none } ∧
    (handleSquareClick StdChess.lib StdChess.afterSelect (StdChess.sq 4 4)).game =
      StdChess.afterSelect.game ∧
    (handleSquareClick StdChess.lib StdChess.afterSelect (StdChess.sq 4 4)).moveHistory =
      StdChess.afterSelect.moveHistory ∧
    (handleSquareClick StdChess.lib StdChess.afterSelect (StdChess.sq 4 4)).redoStack =
      StdChess.afterSelect.redoStack ∧
    (handleSquareClick StdChess.lib StdChess.afterSelect (StdChess.sq 4 4)).showCheckmateModal =
      StdChess.afterSelect.showCheckmateModal ∧
    (handleSquareClick StdChess.lib StdChess.afterSelect (StdChess.sq 4 4)).selectedSquare =
      none :=
  rejected_move_keeps_state StdChess.lib StdChess.afterSelect (StdChess.sq 4 1)
    (StdChess.sq 4 4) StdChess.afterSelect_facts.1 StdChess.afterSelect_facts.2.1

/-- C4 on the engine for standard chess: the pawn on e2 selected by a click in the
initial position belongs to White, who is to move; and a click on the empty square e4
or on the black pawn on e7 in the initial position selects nothing. -/
theorem selection_is_own_piece_witness :
    (∃ p, StdChess.lib.get StdChess.afterSelect.game (StdChess.sq 4 1) = some p ∧
      p.color = StdChess.lib.turn StdChess.afterSelect.game) ∧
    (handleSquareClick StdChess.lib (initialState StdChess.lib) (StdChess.sq 4 3)).selectedSquare =
      none ∧
    (handleSquareClick StdChess.lib (initialState StdChess.lib) (StdChess.sq 4 6)).selectedSquare =
      none :=
  have f := StdChess.afterSelect_facts
  ⟨(selection_is_own_piece StdChess.lib).1 StdChess.afterSelect
      (reachable_run StdChess.lib [StdChess.click 4 1]) (StdChess.sq 4 1) f.1,
    (selection_is_own_piece StdChess.lib).2 (initialState StdChess.lib) (StdChess.sq 4 3)
      f.2.2.1 (Or.inl f.2.2.2.1),
    (selection_is_own_piece StdChess.lib).2 (initialState StdChess.lib) (StdChess.sq 4 6)
      f.2.2.1
      (Or.inr ⟨⟨PieceSymbol.p, Color.b⟩, f.2.2.2.2.1, by rw [f.2.2.2.2.2]; decide⟩)⟩

/-- C6 on the engine for standard chess, in the state after `1. e4 e5` and one
ArrowLeft. -/
theorem moveHistory_is_engine_history_witness :
    (handleKeyDown StdChess.lib StdChess.afterOpening "ArrowLeft").moveHistory =
      StdChess.lib.history (handleKeyDown StdChess.lib StdChess.afterOpening "ArrowLeft").game ∧
    replay StdChess.lib (handleKeyDown StdChess.lib StdChess.afterOpening "ArrowLeft").moveHistory =
      some (handleKeyDown StdChess.lib StdChess.afterOpening "ArrowLeft").game ∧
    ((StdChess.lib.history (gameCopyOf StdChess.lib
        (handleKeyDown StdChess.lib StdChess.afterOpening "ArrowLeft").game)).length > 0 ↔
      (handleKeyDown StdChess.lib StdChess.afterOpening "ArrowLeft").moveHistory ≠ []) ∧
    (handleKeyDown StdChess.lib (handleKeyDown StdChess.lib StdChess.afterOpening "ArrowLeft")
        "ArrowLeft" = handleKeyDown StdChess.lib StdChess.afterOpening "ArrowLeft" ↔
      (handleKeyDown StdChess.lib StdChess.afterOpening "ArrowLeft").moveHistory = []) :=
  moveHistory_is_engine_history StdChess.lib StdChess.lib_lawful
    (handleKeyDown StdChess.lib StdChess.afterOpening "ArrowLeft")
    (Reachable.step StdChess.afterOpening (Event.keyDown "ArrowLeft")
      (reachable_run StdChess.lib StdChess.openingClicks))

/-- C7 on the engine for standard chess, in the state after `1. e4` and ArrowLeft,
where the redo stack is not empty. -/
theorem redo_succeeds_witness :
    StdChess.afterUndo.redoStack ≠ [] ∧
    redoPlayable StdChess.lib StdChess.afterUndo = true ∧
    (∀ hne : StdChess.afterUndo.redoStack ≠ [], ∃ m g',
      StdChess.lib.move (gameCopyOf StdChess.lib StdChess.afterUndo.game)
        (MoveArg.object (StdChess.afterUndo.redoStack.getLast hne)) = some (m, g') ∧
      handleKeyDown StdChess.lib StdChess.afterUndo "ArrowRight" =
        { StdChess.afterUndo with
          game := g'
          moveHistory := StdChess.afterUndo.moveHistory ++ [m.san]
          redoStack := StdChess.afterUndo.redoStack.dropLast
          selectedSquare := none }) :=
  ⟨StdChess.afterUndo_facts.1,
    redo_succeeds StdChess.lib StdChess.lib_lawful StdChess.afterUndo
      (reachable_run StdChess.lib _)⟩

/-- C8 on the engine for standard chess: after `1. f3 e5 2. g4`, with the queen on d8
selected and the modal flag false, the click on h4 plays `Qh4#` and sets the flag. -/
theorem checkmate_modal_from_san_witness :
    StdChess.beforeMate.showCheckmateModal = false ∧
    includes StdChess.moveQh4.san '#' = true ∧
    (handleSquareClick StdChess.lib StdChess.beforeMate (StdChess.sq 7 3)).showCheckmateModal =
      true :=
  ⟨StdChess.beforeMate_facts.2.1, by decide,
    (checkmate_modal_from_san StdChess.lib StdChess.beforeMate (StdChess.sq 3 7)
      (StdChess.sq 7 3) StdChess.beforeMate_facts.1).1 StdChess.moveQh4 StdChess.afterMate.game
      StdChess.beforeMate_facts.2.2 (by decide)⟩

/-- C9 fails as stated: after `1. f3 e5 2. g4 Qh4#` the modal flag is true, and it is
still true after `resetGame`. -/
theorem resetGame_leaves_modal_open :
    Reachable StdChess.lib StdChess.afterMate ∧
    StdChess.afterMate.showCheckmateModal = true ∧
    (resetGame StdChess.lib StdChess.afterMate).showCheckmateModal = true :=
  have h : StdChess.afterMate.showCheckmateModal = true := by
    unfold StdChess.afterMate
    rw [handleSquareClick_selected StdChess.lib StdChess.beforeMate (StdChess.sq 3 7)
      (StdChess.sq 7 3) StdChess.beforeMate_facts.1, StdChess.beforeMate_facts.2.2]
    decide
  ⟨Reachable.step StdChess.beforeMate (Event.squareClick (StdChess.sq 7 3))
      (reachable_run StdChess.lib _), h, h⟩

/-- C10 fails as stated: with e2 selected in the initial position (no move played, empty
redo stack), e2 is still selected after ArrowLeft and after ArrowRight. -/
theorem arrow_keys_keep_selection :
    Reachable StdChess.lib StdChess.afterSelect ∧
    (handleKeyDown StdChess.lib StdChess.afterSelect "ArrowLeft").selectedSquare =
      some (StdChess.sq 4 1) ∧
    (handleKeyDown StdChess.lib StdChess.afterSelect "ArrowRight").selectedSquare =
      some (StdChess.sq 4 1) :=
  ⟨reachable_run StdChess.lib _, by decide!⟩

end Chess
